import Mathlib

/-!
Shallow embedding of the `project-printer` repository (src/printer.py and
src/dir_to_yml.py) and proofs about it.

Modelling conventions:
* Paths are `String`s; the host path separator `os.sep` is modelled as `'/'`
  (POSIX host).  `os.path.join`, `os.path.basename`, `str.split(os.sep)` and
  `str.count(os.sep)` are modelled by `pjoin`, `basename`, `String.splitOn "/"`
  and `countSep` below, following the CPython `posixpath` implementations.
* External capabilities (the filesystem, `os.path.normpath`, `os.path.relpath`
  against the current working directory, file reading with the latin-1
  fallback, `re.compile` / `re.search`, and the `pathspec` gitignore matcher)
  are oracle parameters: arbitrary functions supplied to the model.
* Python exceptions that the repository lets escape are modelled with
  `Except String`.
-/

namespace ProjPrinter

/-- Model of `posixpath.join` restricted to two arguments: if `b` is absolute
it replaces `a`; otherwise `b` is appended, inserting `'/'` unless `a` is
empty or already ends with the separator.  The `startswith` / `endswith`
probes are taken on the character list. -/
def pjoin (a b : String) : String :=
  if b.toList.head? = some '/' then b
  else if a = "" ∨ a.toList.getLast? = some '/' then a ++ b
  else a ++ "/" ++ b

/-- `os.path.join(a, *parts)` for a non-empty argument list. -/
def joinAll (a : String) (parts : List String) : String :=
  parts.foldl pjoin a

/-- `s.count(os.sep)` for the one-character separator: the number of `'/'`
characters in `s`. -/
def countSep (s : String) : Nat :=
  s.toList.count '/'

/-- Characters of `posixpath.basename`: everything after the last `'/'`. -/
def basenameChars (l : List Char) : List Char :=
  (l.reverse.takeWhile (fun c => c ≠ '/')).reverse

/-- Model of `posixpath.basename`. -/
def basename (p : String) : String :=
  String.mk (basenameChars p.toList)

/-- `fix_windows_path` from src/dir_to_yml.py (lines 128-143): if the path
starts with a single ASCII letter followed by `':'` and its third character
exists and is not a backslash, insert a backslash after the colon; otherwise
return the path unchanged. -/
def fix_windows_path (path : String) : String :=
  match path.toList with
  | c₁ :: c₂ :: rest =>
      if c₁.isAlpha ∧ c₂ = ':' then
        match rest with
        | [] => path
        | c₃ :: tl =>
            if c₃ ≠ '\\' then String.mk (c₁ :: c₂ :: '\\' :: c₃ :: tl) else path
      else path
  | _ => path

/-- Boolean form of the guard `re.match(r'^[A-Za-z]:', path)` used by
`fix_windows_path`. -/
def is_drive_path (path : String) : Bool :=
  match path.toList with
  | c₁ :: c₂ :: _ => c₁.isAlpha && c₂ = ':'
  | _ => false

theorem toList_mk (l : List Char) : (String.mk l).toList = l := rfl

/-- Case analysis on `fix_windows_path`: either it leaves the path unchanged,
or the path is a drive-letter path missing the backslash and the result is the
path with a backslash inserted after the colon. -/
theorem fix_windows_path_cases (p : String) :
    fix_windows_path p = p ∨
    ∃ c₁ c₂ c₃ tl, p.toList = c₁ :: c₂ :: c₃ :: tl ∧ c₁.isAlpha = true ∧ c₂ = ':' ∧
      c₃ ≠ '\\' ∧ fix_windows_path p = String.mk (c₁ :: c₂ :: '\\' :: c₃ :: tl) := by
  rw [fix_windows_path]
  rcases hp : p.toList with _ | ⟨c₁, _ | ⟨c₂, rest⟩⟩
  · exact Or.inl rfl
  · exact Or.inl rfl
  · by_cases hg : c₁.isAlpha ∧ c₂ = ':'
    · rcases rest with _ | ⟨c₃, tl⟩
      · simp [hg]
      · by_cases hb : c₃ = '\\'
        · simp [hg, hb]
        · right
          exact ⟨c₁, c₂, c₃, tl, rfl, hg.1, hg.2, hb, by simp [hg, hb]⟩
    · simp [hg]

theorem fix_windows_path_of_not_drive (p : String) (h : is_drive_path p = false) :
    fix_windows_path p = p := by
  unfold fix_windows_path
  unfold is_drive_path at h
  match hp : p.toList with
  | [] => simp
  | [c] => simp
  | c₁ :: c₂ :: rest =>
    rw [hp] at h
    have : ¬ (c₁.isAlpha ∧ c₂ = ':') := by
      intro hc
      simp [hc.1, hc.2] at h
    simp [this]

/-- C9: the path normalizer `fix_windows_path` is idempotent on every input
path (drive-letter or not), and every path that does not begin with a single
ASCII letter followed by `':'` is returned unchanged. -/
theorem fix_windows_path_idem_and_passthrough :
    (∀ p, fix_windows_path (fix_windows_path p) = fix_windows_path p) ∧
    (∀ p, is_drive_path p = false → fix_windows_path p = p) := by
  constructor
  · intro p
    rcases fix_windows_path_cases p with h | ⟨c₁, c₂, c₃, tl, _, ha, hc, hb, heq⟩
    · rw [h, h]
    · rw [heq, fix_windows_path]
      simp [toList_mk, ha, hc]
  · exact fix_windows_path_of_not_drive

/-- Witness for C9: concrete evaluations through the theorem, at a
drive-letter path and at a plain path. -/
theorem fix_windows_path_idem_and_passthrough_witness :
    fix_windows_path (fix_windows_path "C:proj") = fix_windows_path "C:proj" ∧
    fix_windows_path "foo/bar" = "foo/bar" :=
  ⟨fix_windows_path_idem_and_passthrough.1 "C:proj",
   fix_windows_path_idem_and_passthrough.2 "foo/bar" (by decide)⟩

/-! ## Tree renderer (src/printer.py lines 38-67) -/

/-- A directory of the modelled filesystem: its base name, its immediate
subdirectories and the names of its immediate regular files, in the
enumeration order `os.walk` would yield them. -/
inductive Dir : Type where
  | mk (name : String) (subdirs : List Dir) (files : List String) : Dir

def Dir.name : Dir → String
  | .mk nm _ _ => nm

def Dir.subdirs : Dir → List Dir
  | .mk _ ds _ => ds

def Dir.files : Dir → List String
  | .mk _ _ fs => fs

/-- Custom induction principle for the nested inductive `Dir`. -/
theorem Dir.ind {P : Dir → Prop}
    (step : ∀ nm subdirs fs, (∀ c ∈ subdirs, P c) → P (Dir.mk nm subdirs fs)) :
    ∀ d, P d := by
  have key : ∀ n (d : Dir), sizeOf d ≤ n → P d := by
    intro n
    induction n with
    | zero =>
      intro d h
      cases d with
      | mk nm subdirs fs => simp only [Dir.mk.sizeOf_spec] at h; omega
    | succ n ih =>
      intro d h
      cases d with
      | mk nm subdirs fs =>
        apply step
        intro c hc
        apply ih
        have h1 := List.sizeOf_lt_of_mem hc
        simp only [Dir.mk.sizeOf_spec] at h
        omega
  intro d
  exact key (sizeOf d) d (Nat.le_refl _)

/-- `is_excluded` from src/printer.py lines 38-42.  The gitignore matcher
`spec.match_file` is an external capability, modelled by an arbitrary
predicate `m` on path strings.  `path.endswith('/')` is modelled on the
character list. -/
def is_excluded (path : String) (m : String → Bool) (is_dir : Bool) : Bool :=
  m (if is_dir && !(path.toList.getLast? = some '/' : Bool) then path ++ "/" else path)

/-- The relative path (`os.path.relpath(root, dir_path)`) of the walk node
reached from the walk root through the child names `segs`, rebuilt by
joining; the empty string stands for the root itself (where the source code
replaces `'.'` by `''`, printer.py lines 49-51). -/
def relString (segs : List String) : String :=
  segs.foldl pjoin ""

/-- The `level` computed at a walk node (printer.py lines 49-53): `0` at the
root, otherwise `rel_root.count(os.sep) + 1`. -/
def walkLevel (relSegs : List String) : Nat :=
  if relSegs = [] then 0 else countSep (relString relSegs) + 1

/-- `'    ' * level` (printer.py line 55). -/
def pyIndent (level : Nat) : String :=
  String.mk (List.replicate (4 * level) ' ')

/-- One emitted node of the tree walk: the rendered line, the node's path
relative to the walk root (the list of names below the root; `[]` for the
root itself), and whether the node is a directory. -/
structure TreeEntry where
  line : String
  segs : List String
  isDir : Bool
deriving DecidableEq

/-- Instrumented translation of `get_tree_output` (printer.py lines 44-67):
the depth-first `os.walk` with the in-place pruning of `dirs` and the
filtering of `files`, emitting for each visited node the same line the
source emits (`f"{indent}+---{basename}"`), together with the node's
relative path.  `os.path.basename(root)` is the current node's name. -/
def treeEntries (m : String → Bool) : List String → Dir → List TreeEntry
  | relSegs, .mk nm subdirs files =>
    ⟨pyIndent (walkLevel relSegs) ++ "+---" ++ nm, relSegs, true⟩
      :: ((files.filter fun f => !is_excluded (pjoin (relString relSegs) f) m false).map
            fun f => ⟨pyIndent (walkLevel relSegs + 1) ++ "+---" ++ f, relSegs ++ [f], false⟩)
      ++ ((subdirs.filter fun c => !is_excluded (pjoin (relString relSegs) c.name) m true).attach.map
            fun c => treeEntries m (relSegs ++ [c.1.name]) c.1).flatten
termination_by _ d => sizeOf d
decreasing_by
  have h0 := List.mem_filter.mp c.2
  have h1 := List.sizeOf_lt_of_mem h0.1
  simp only [Dir.mk.sizeOf_spec]
  omega

/-- `get_tree_output` from src/printer.py lines 44-67, producing the list of
rendered lines: at each visited directory one header line, then one line per
surviving file; excluded subdirectories are pruned from the walk. -/
def get_tree_output_walk (m : String → Bool) : List String → Dir → List String
  | relSegs, .mk nm subdirs files =>
    (pyIndent (walkLevel relSegs) ++ "+---" ++ nm)
      :: ((files.filter fun f => !is_excluded (pjoin (relString relSegs) f) m false).map
            fun f => pyIndent (walkLevel relSegs + 1) ++ "+---" ++ f)
      ++ ((subdirs.filter fun c => !is_excluded (pjoin (relString relSegs) c.name) m true).attach.map
            fun c => get_tree_output_walk m (relSegs ++ [c.1.name]) c.1).flatten
termination_by _ d => sizeOf d
decreasing_by
  have h0 := List.mem_filter.mp c.2
  have h1 := List.sizeOf_lt_of_mem h0.1
  simp only [Dir.mk.sizeOf_spec]
  omega

def get_tree_output (m : String → Bool) (root : Dir) : List String :=
  get_tree_output_walk m [] root

/-- Unfolding of `treeEntries` without `attach`. -/
theorem treeEntries_mk (m : String → Bool) (relSegs : List String)
    (nm : String) (subdirs : List Dir) (files : List String) :
    treeEntries m relSegs (.mk nm subdirs files) =
      ⟨pyIndent (walkLevel relSegs) ++ "+---" ++ nm, relSegs, true⟩
        :: ((files.filter fun f => !is_excluded (pjoin (relString relSegs) f) m false).map
              fun f => ⟨pyIndent (walkLevel relSegs + 1) ++ "+---" ++ f, relSegs ++ [f], false⟩)
        ++ ((subdirs.filter fun c => !is_excluded (pjoin (relString relSegs) c.name) m true).map
              fun c => treeEntries m (relSegs ++ [c.name]) c).flatten := by
  rw [treeEntries.eq_1]
  congr 1
  congr 1
  exact List.attach_map_val
    (List.filter (fun c => !is_excluded (pjoin (relString relSegs) c.name) m true) subdirs)
    (fun c => treeEntries m (relSegs ++ [c.name]) c)

/-- Unfolding of `get_tree_output_walk` without `attach`. -/
theorem get_tree_output_walk_mk (m : String → Bool) (relSegs : List String)
    (nm : String) (subdirs : List Dir) (files : List String) :
    get_tree_output_walk m relSegs (.mk nm subdirs files) =
      (pyIndent (walkLevel relSegs) ++ "+---" ++ nm)
        :: ((files.filter fun f => !is_excluded (pjoin (relString relSegs) f) m false).map
              fun f => pyIndent (walkLevel relSegs + 1) ++ "+---" ++ f)
        ++ ((subdirs.filter fun c => !is_excluded (pjoin (relString relSegs) c.name) m true).map
              fun c => get_tree_output_walk m (relSegs ++ [c.name]) c).flatten := by
  rw [get_tree_output_walk.eq_1]
  congr 1
  congr 1
  exact List.attach_map_val
    (List.filter (fun c => !is_excluded (pjoin (relString relSegs) c.name) m true) subdirs)
    (fun c => get_tree_output_walk m (relSegs ++ [c.name]) c)

/-- The rendered lines are exactly the `line` components of the instrumented
walk, in order. -/
theorem get_tree_output_walk_eq_entries (m : String → Bool) (d : Dir) :
    ∀ relSegs, get_tree_output_walk m relSegs d = (treeEntries m relSegs d).map TreeEntry.line := by
  induction d using Dir.ind with
  | step nm subdirs fs ih =>
    intro relSegs
    rw [get_tree_output_walk_mk, treeEntries_mk]
    simp only [List.map_cons, List.map_append, List.map_map, List.map_flatten]
    have hmap : (List.filter (fun c => !is_excluded (pjoin (relString relSegs) c.name) m true) subdirs).map
          (fun c => get_tree_output_walk m (relSegs ++ [c.name]) c) =
        (List.filter (fun c => !is_excluded (pjoin (relString relSegs) c.name) m true) subdirs).map
          (List.map TreeEntry.line ∘ fun c => treeEntries m (relSegs ++ [c.name]) c) :=
      List.map_congr_left fun c hc => ih c (List.mem_filter.mp hc).1 _
    rw [hmap]
    rfl

theorem relString_snoc (segs : List String) (x : String) :
    relString (segs ++ [x]) = pjoin (relString segs) x := by
  simp [relString, List.foldl_append]

/-- Splitting an ancestor relation against a path extended by one name. -/
theorem ancestor_snoc {α : Type} {q t s : List α} {x : α} (h : q ++ t = s ++ [x]) :
    (q = s ++ [x] ∧ t = []) ∨ ∃ r, q ++ r = s := by
  rcases List.eq_nil_or_concat t with rfl | ⟨t', y, rfl⟩
  · exact Or.inl ⟨by simpa using h, rfl⟩
  · right
    rw [List.concat_eq_append, ← List.append_assoc] at h
    have hlen : (q ++ t').length = s.length := by
      have hl := congrArg List.length h
      simp only [List.length_append, List.length_cons, List.length_nil] at hl
      simp only [List.length_append]
      omega
    exact ⟨t', (List.append_inj h hlen).1⟩

/-- Exclusion invariant of the walk: provided every non-root ancestor
directory of the current node is unexcluded, every emitted entry is
unexcluded and so is every non-root proper ancestor of it. -/
theorem treeEntries_not_excluded (m : String → Bool) (d : Dir) :
    ∀ relSegs,
      (∀ q, q ≠ [] → (∃ t, q ++ t = relSegs) → is_excluded (relString q) m true = false) →
      ∀ e ∈ treeEntries m relSegs d,
        (e.segs ≠ [] → is_excluded (relString e.segs) m e.isDir = false) ∧
        (∀ q, q ≠ [] → (∃ t, t ≠ [] ∧ q ++ t = e.segs) →
          is_excluded (relString q) m true = false) := by
  induction d using Dir.ind with
  | step nm subdirs fs ih =>
    intro relSegs hctx e he
    rw [treeEntries_mk] at he
    simp only [List.mem_cons, List.mem_append, List.mem_map, List.mem_flatten] at he
    rcases he with (rfl | ⟨f, hf, rfl⟩) | ⟨l, ⟨c, hcmem, rfl⟩, hel⟩
    · constructor
      · intro hne
        exact hctx relSegs hne ⟨[], List.append_nil _⟩
      · rintro q hq ⟨t, -, hqt⟩
        exact hctx q hq ⟨t, hqt⟩
    · have hkept := (List.mem_filter.mp hf).2
      constructor
      · intro _
        show is_excluded (relString (relSegs ++ [f])) m false = false
        rw [relString_snoc]
        simpa using hkept
      · rintro q hq ⟨t, htne, hqt⟩
        rcases ancestor_snoc hqt with ⟨-, rfl⟩ | ⟨r, hr⟩
        · exact absurd rfl htne
        · exact hctx q hq ⟨r, hr⟩
    · have hcsub := List.mem_filter.mp hcmem
      refine ih c hcsub.1 (relSegs ++ [c.name]) ?_ e hel
      rintro q hq ⟨t, hqt⟩
      rcases ancestor_snoc hqt with ⟨rfl, -⟩ | ⟨r, hr⟩
      · rw [relString_snoc]
        simpa using hcsub.2
      · exact hctx q hq ⟨r, hr⟩

/-- C2: the tree renderer's output lines are exactly the lines of the
instrumented walk `treeEntries`, and no entry excluded by the ignore matcher
is ever emitted: every emitted non-root node's relative path is unexcluded
(files probed with `is_directory = false`, directories with `true`, the
source appending a trailing separator for directories), and every non-root
proper ancestor directory of an emitted node is unexcluded as a directory —
so once a directory is excluded, none of its descendants is visited or
emitted. -/
theorem tree_renderer_excludes_matched (m : String → Bool) (root : Dir) :
    get_tree_output m root = (treeEntries m [] root).map TreeEntry.line ∧
    ∀ e ∈ treeEntries m [] root,
      (e.segs ≠ [] → is_excluded (relString e.segs) m e.isDir = false) ∧
      (∀ q, q ≠ [] → (∃ t, t ≠ [] ∧ q ++ t = e.segs) →
        is_excluded (relString q) m true = false) := by
  constructor
  · exact get_tree_output_walk_eq_entries m root []
  · refine treeEntries_not_excluded m root [] ?_
    rintro q hq ⟨t, hqt⟩
    exact absurd (List.append_eq_nil.mp hqt).1 hq

/-- Witness for C2: on a concrete tree with matcher excluding directory
`sub`, the emitted file entry `b.txt` is unexcluded. -/
theorem tree_renderer_excludes_matched_witness :
    is_excluded (relString ["b.txt"]) (fun s => s == "sub/") false = false := by
  have h := (tree_renderer_excludes_matched (fun s => s == "sub/")
      (Dir.mk "r" [Dir.mk "sub" [] ["a.txt"]] ["b.txt"])).2
      ⟨pyIndent (walkLevel [] + 1) ++ "+---" ++ "b.txt", ["b.txt"], false⟩
      (by rw [treeEntries_mk]; decide)
  exact h.1 (by decide)

/-- Wellformedness of one filesystem name: nonempty and free of the path
separator (true of any name a real filesystem can hold). -/
def nameOk (s : String) : Bool :=
  !(s == "") && !(s.toList.contains '/')

/-- All names in a tree are wellformed. -/
def namesOk : Dir → Bool
  | .mk nm subdirs files =>
    nameOk nm && files.all nameOk && ((subdirs.attach.map fun c => namesOk c.1).all id)
termination_by d => sizeOf d
decreasing_by
  have h1 := List.sizeOf_lt_of_mem c.2
  simp only [Dir.mk.sizeOf_spec]
  omega

theorem all_map_id {α : Type} (l : List α) (f : α → Bool) :
    (l.map f).all id = l.all f := by
  induction l with
  | nil => rfl
  | cons a l ih => simp [List.all_cons, ih]

/-- Unfolding of `namesOk` without `attach`. -/
theorem namesOk_mk (nm : String) (subdirs : List Dir) (files : List String) :
    namesOk (.mk nm subdirs files) =
      (nameOk nm && files.all nameOk && subdirs.all namesOk) := by
  rw [namesOk.eq_1, List.attach_map_val subdirs namesOk, all_map_id]

theorem namesOk_parts {nm : String} {subdirs : List Dir} {files : List String}
    (h : namesOk (.mk nm subdirs files) = true) :
    nameOk nm = true ∧ (∀ f ∈ files, nameOk f = true) ∧ ∀ c ∈ subdirs, namesOk c = true := by
  rw [namesOk_mk] at h
  simp only [Bool.and_eq_true, List.all_eq_true] at h
  exact ⟨h.1.1, h.1.2, h.2⟩

theorem nameOk_of_namesOk {c : Dir} (h : namesOk c = true) : nameOk c.name = true := by
  cases c with
  | mk nm subdirs files => exact (namesOk_parts h).1

theorem string_eq_empty_iff (s : String) : s = "" ↔ s.toList = [] := by
  rw [String.ext_iff]
  exact Iff.rfl

theorem toList_append (a b : String) : (a ++ b).toList = a.toList ++ b.toList :=
  String.data_append a b

theorem nameOk_props {s : String} (h : nameOk s = true) :
    s.toList ≠ [] ∧ '/' ∉ s.toList := by
  simp only [nameOk, Bool.and_eq_true, Bool.not_eq_true'] at h
  constructor
  · intro h0
    have : s = "" := (string_eq_empty_iff s).mpr h0
    rw [this] at h
    simp at h
  · intro hm
    have := List.elem_iff.mpr hm
    rw [show s.toList.elem '/' = s.toList.contains '/' from rfl, h.2] at this
    cases this

theorem getLast?_append_right {α : Type} {l₁ l₂ : List α} (h : l₂ ≠ []) :
    (l₁ ++ l₂).getLast? = l₂.getLast? := by
  rw [List.getLast?_append, List.getLast?_eq_getLast _ h]
  rfl

/-- Structure of the relative-path string: for wellformed, nonempty segment
lists it is nonempty, does not end in a separator, and contains exactly
`length - 1` separators. -/
theorem relString_props : ∀ (segs : List String),
    (∀ s ∈ segs, nameOk s = true) → segs ≠ [] →
    (relString segs).toList ≠ [] ∧ (relString segs).toList.getLast? ≠ some '/' ∧
      countSep (relString segs) = segs.length - 1 := by
  intro segs
  induction segs using List.reverseRecOn with
  | nil => intro _ hne; exact absurd rfl hne
  | append_singleton init x ih =>
    intro hgood _
    have hx := nameOk_props (hgood x (by simp))
    have hxhead : x.toList.head? ≠ some '/' := by
      intro hc
      exact hx.2 (List.mem_of_mem_head? hc)
    have hxlast : x.toList.getLast? ≠ some '/' := by
      intro hc
      exact hx.2 (List.mem_of_mem_getLast? hc)
    have hxcount : x.toList.count '/' = 0 := List.count_eq_zero.mpr hx.2
    rw [relString_snoc]
    rcases eq_or_ne init [] with rfl | hinit
    · have hres : pjoin (relString []) x = "" ++ x := by
        have hc : relString [] = "" ∨ (relString []).toList.getLast? = some '/' := Or.inl rfl
        rw [pjoin, if_neg hxhead, if_pos hc]
        rfl
      rw [hres]
      have hlist : ("" ++ x).toList = x.toList := by
        rw [toList_append]
        rfl
      refine ⟨by rw [hlist]; exact hx.1, by rw [hlist]; exact hxlast, ?_⟩
      rw [countSep, hlist]
      simpa using hxcount
    · obtain ⟨hne, hlast, hcount⟩ := ih (fun s hs => hgood s (by simp [hs])) hinit
      have hrne : relString init ≠ "" := by
        intro h0
        exact hne ((string_eq_empty_iff _).mp h0)
      have hres : pjoin (relString init) x = relString init ++ "/" ++ x := by
        rw [pjoin, if_neg hxhead, if_neg]
        rintro (h0 | h0)
        · exact hrne h0
        · exact hlast h0
      rw [hres]
      have hlist : (relString init ++ "/" ++ x).toList =
          (relString init).toList ++ '/' :: x.toList := by
        rw [toList_append, toList_append, List.append_assoc]
        rfl
      refine ⟨?_, ?_, ?_⟩
      · rw [hlist]
        simp
      · rw [hlist, show ('/' :: x.toList) = ['/'] ++ x.toList from rfl, ← List.append_assoc,
          getLast?_append_right hx.1]
        exact hxlast
      · rw [countSep, hlist, List.count_append]
        have : ('/' :: x.toList).count '/' = 1 := by
          rw [List.count_cons, hxcount]
          simp
        rw [this]
        have hlen : init.length ≠ 0 := fun h0 => hinit (List.length_eq_zero.mp h0)
        rw [show countSep (relString init) = (relString init).toList.count '/' from rfl] at hcount
        simp only [List.length_append, List.length_cons, List.length_nil]
        omega

/-- For wellformed segment lists the source's level formula
(`rel_root.count(os.sep) + 1`, `0` at the root) equals the number of
segments below the walk root. -/
theorem walkLevel_eq_length (segs : List String) (h : ∀ s ∈ segs, nameOk s = true) :
    walkLevel segs = segs.length := by
  rcases eq_or_ne segs [] with rfl | hne
  · rfl
  · have hc := (relString_props segs h hne).2.2
    rw [walkLevel, if_neg hne, hc]
    have hlen : segs.length ≠ 0 := fun h0 => hne (List.length_eq_zero.mp h0)
    omega

/-- Indentation invariant of the instrumented walk. -/
theorem treeEntries_indent (m : String → Bool) (d : Dir) :
    ∀ relSegs, namesOk d = true → (∀ s ∈ relSegs, nameOk s = true) →
      ∀ e ∈ treeEntries m relSegs d,
        (e.isDir = true →
          ∃ nm, e.line = String.mk (List.replicate (4 * e.segs.length) ' ') ++ "+---" ++ nm) ∧
        (e.isDir = false → ∃ ds f, e.segs = ds ++ [f] ∧
          e.line = String.mk (List.replicate (4 * (ds.length + 1)) ' ') ++ "+---" ++ f) := by
  induction d using Dir.ind with
  | step nm subdirs fs ih =>
    intro relSegs hok hgood e he
    obtain ⟨hnm, hfiles, hsubs⟩ := namesOk_parts hok
    rw [treeEntries_mk] at he
    simp only [List.mem_cons, List.mem_append, List.mem_map, List.mem_flatten] at he
    rcases he with (rfl | ⟨f, hf, rfl⟩) | ⟨l, ⟨c, hcmem, rfl⟩, hel⟩
    · constructor
      · intro _
        refine ⟨nm, ?_⟩
        show pyIndent (walkLevel relSegs) ++ "+---" ++ nm = _
        rw [walkLevel_eq_length relSegs hgood]
        rfl
      · intro hfalse
        simp at hfalse
    · constructor
      · intro htrue
        simp at htrue
      · intro _
        refine ⟨relSegs, f, rfl, ?_⟩
        show pyIndent (walkLevel relSegs + 1) ++ "+---" ++ f = _
        rw [walkLevel_eq_length relSegs hgood]
        rfl
    · have hcsub := List.mem_filter.mp hcmem
      refine ih c hcsub.1 (relSegs ++ [c.name]) (hsubs c hcsub.1) ?_ e hel
      intro s hs
      rcases List.mem_append.mp hs with hs | hs
      · exact hgood s hs
      · rw [List.mem_singleton.mp hs]
        exact nameOk_of_namesOk (hsubs c hcsub.1)

/-- C3: under the wellformedness assumption that every name in the tree is
nonempty and separator-free (true of any real filesystem), the rendered
lines are the lines of the instrumented walk and: the header line of a
directory at depth `d` is indented by exactly `4 * d` spaces, where `d` is
the number of path segments below the walk root (the root has depth `0`,
its immediate children depth `1`, and for a wellformed relative path this
is `rel_root.count(os.sep) + 1`, i.e. one more than the number of path
separators in the directory's relative path, the source's own formula);
each surviving file of a directory at depth `d` is indented by exactly
`4 * (d + 1)` spaces. -/
theorem tree_renderer_indentation (m : String → Bool) (root : Dir)
    (hnames : namesOk root = true) :
    get_tree_output m root = (treeEntries m [] root).map TreeEntry.line ∧
    ∀ e ∈ treeEntries m [] root,
      (e.isDir = true →
        ∃ nm, e.line = String.mk (List.replicate (4 * e.segs.length) ' ') ++ "+---" ++ nm) ∧
      (e.isDir = false → ∃ ds f, e.segs = ds ++ [f] ∧
        e.line = String.mk (List.replicate (4 * (ds.length + 1)) ' ') ++ "+---" ++ f) := by
  constructor
  · exact get_tree_output_walk_eq_entries m root []
  · exact treeEntries_indent m root [] hnames (by simp)

/-- Witness for C3: on a concrete one-file tree, the file line is indented
by exactly four spaces. -/
theorem tree_renderer_indentation_witness :
    ∃ ds f, ([] : List String) ++ ["w.txt"] = ds ++ [f] ∧
      pyIndent (walkLevel [] + 1) ++ "+---" ++ "w.txt" =
        String.mk (List.replicate (4 * (ds.length + 1)) ' ') ++ "+---" ++ f := by
  have h := (tree_renderer_indentation (fun _ => false) (Dir.mk "r" [] ["w.txt"])
      (by rw [namesOk_mk]; decide)).2
      ⟨pyIndent (walkLevel [] + 1) ++ "+---" ++ "w.txt", [] ++ ["w.txt"], false⟩
      (by rw [treeEntries_mk]; decide)
  exact h.2 rfl

/-! ## Tree parser (src/dir_to_yml.py lines 10-126)

Python string operations are modelled on character lists so that every
definition evaluates: `str.strip` (ASCII whitespace), `str.startswith`,
`str.split` with a one-character separator (keeping empty parts),
`str.splitlines` (modelled as splitting on `'\n'`; the claims are
insensitive to the other universal newlines), `str.find` and slicing. -/

/-- Python `str.isspace` characters relevant to `str.strip()`. -/
def pyIsSpace (c : Char) : Bool :=
  c == ' ' || c == '\t' || c == '\n' || c == '\r' || c == '\x0b' || c == '\x0c'

/-- Python `str.strip()`. -/
def pyStrip (s : String) : String :=
  String.mk (((s.toList.dropWhile pyIsSpace).reverse.dropWhile pyIsSpace).reverse)

/-- Python `str.startswith(pre)`. -/
def pyStartsWith (s pre : String) : Bool :=
  pre.toList.isPrefixOf s.toList

/-- Python `str.split(sep)` for a one-character separator: keeps empty
parts. -/
def splitChar (sep : Char) : List Char → List (List Char)
  | [] => [[]]
  | c :: rest =>
    match splitChar sep rest with
    | [] => [[c]]
    | h :: t => if c = sep then [] :: h :: t else (c :: h) :: t

def pySplit (s : String) (sep : Char) : List String :=
  (splitChar sep s.toList).map String.mk

/-- Python `str.find(sub)` on characters: the index of the first
occurrence. -/
def findSub (pat : List Char) : List Char → Option Nat
  | [] => if pat.isEmpty then some 0 else none
  | c :: rest =>
    if pat.isPrefixOf (c :: rest) then some 0
    else (findSub pat rest).map (· + 1)

/-- `input_text.find(sub) >= 0`. -/
def containsSub (s pat : String) : Bool :=
  (findSub pat.toList s.toList).isSome

/-- Model of `re.search(r'Directory: (.*?)$', input_text, re.MULTILINE)`
(dir_to_yml.py line 42): the text after the first occurrence of
`"Directory: "` up to the end of that line, `none` when absent. -/
def directoryHeaderCapture (text : String) : Option String :=
  match findSub "Directory: ".toList text.toList with
  | none => none
  | some i =>
      some (String.mk ((text.toList.drop (i + "Directory: ".toList.length)).takeWhile
        (fun c => c ≠ '\n')))

/-- Model of `re.search(r'\+---([^\n\r]+)', input_text)` (dir_to_yml.py
line 49): at the first position where `+---` is followed by at least one
non-newline character, capture the maximal run of non-newline characters;
a position with an empty capture is skipped, as the regex engine would. -/
def firstMarkerCapture : List Char → Option String
  | [] => none
  | c :: rest =>
    if "+---".toList.isPrefixOf (c :: rest) then
      match ((c :: rest).drop 4).takeWhile (fun ch => ch ≠ '\n' && ch ≠ '\r') with
      | [] => firstMarkerCapture rest
      | cap => some (String.mk cap)
    else firstMarkerCapture rest

inductive PathType : Type where
  | files | dirs | both
deriving DecidableEq

/-- The per-line loop of `parse_directory_structure` (dir_to_yml.py lines
61-99), threading `current_path` (the ancestor-name stack) and `paths` (the
accumulated results).  `current_path.take depth` models the
`while len(current_path) > depth: pop` loop; when the stack is still
shorter than `depth`, the source's `current_path[depth] = name` raises
`IndexError`, modelled as an error.  `research pat name` models
`re.search(pat, name)` (external regex capability); the `if file_pattern`
truthiness test is false for `None` and for the empty pattern string. -/
def parseTreeLines (base_dir : String) (path_type : PathType) (file_pattern : Option String)
    (research : String → String → Bool) :
    List String → List String → List String → Except String (List String)
  | [], _currentPath, paths => .ok paths
  | line :: rest, currentPath, paths =>
    if pyStartsWith line "Directory:" ∨ pyStrip line = "" then
      parseTreeLines base_dir path_type file_pattern research rest currentPath paths
    else
      match findSub "+---".toList line.toList with
      | none => parseTreeLines base_dir path_type file_pattern research rest currentPath paths
      | some indent =>
        let depth := indent / 4
        let stack := currentPath.take depth
        if stack.length = depth then
          let name := pyStrip (String.mk (line.toList.drop (indent + 4)))
          let stack := stack ++ [name]
          let is_file := name.toList.contains '.'
          let matchesType : Bool :=
            (path_type == PathType.both) || (path_type == PathType.files && is_file) ||
              (path_type == PathType.dirs && !is_file)
          let paths' :=
            if matchesType then
              match file_pattern with
              | some pat =>
                if pat ≠ "" ∧ is_file = true then
                  (if research pat name then paths ++ [joinAll base_dir stack] else paths)
                else if is_file = false then paths ++ [joinAll base_dir stack]
                else paths
              | none => paths ++ [joinAll base_dir stack]
            else paths
          parseTreeLines base_dir path_type file_pattern research rest stack paths'
        else .error "IndexError: list assignment index out of range"

/-- The inner search for the second occurrence of `first_dir`
(dir_to_yml.py lines 107-114): walk the parts with a `found_first` flag and
return the index of the second occurrence. -/
def removeSecondLoop (first_dir : String) : List String → Bool → Nat → Option Nat
  | [], _found, _i => none
  | p :: rest, found, i =>
    if p = first_dir then
      if found then some i else removeSecondLoop first_dir rest true (i + 1)
    else removeSecondLoop first_dir rest found (i + 1)

/-- The duplicate-first-directory collapse (dir_to_yml.py lines 101-121):
paths whose `os.sep`-split parts contain `first_dir` more than once have the
second occurrence removed and are rejoined with `os.path.join`; other paths
are kept as they are.  (When the search reports no index — impossible when
the count exceeds one — the source appends nothing; and `os.path.join()` of
an empty parts list, equally unreachable, is modelled as `""`.) -/
def fixDupPaths (first_dir : String) (paths : List String) : List String :=
  paths.flatMap fun path =>
    let parts := pySplit path '/'
    if 1 < parts.count first_dir then
      match removeSecondLoop first_dir parts false 0 with
      | some idx =>
        let new_parts := parts.take idx ++ parts.drop (idx + 1)
        [match new_parts with
         | [] => ""
         | h :: t => joinAll h t]
      | none => []
    else [path]

/-- `parse_directory_structure` from src/dir_to_yml.py lines 10-126.
Flat-list mode is entered iff the stripped input does not start with
`Directory:` and the input does not contain `+---`; otherwise the rendered
tree is parsed.  `ValueError` / `IndexError` are modelled as `.error`. -/
def parse_directory_structure (input_text : String) (path_type : PathType)
    (file_pattern : Option String) (research : String → String → Bool) :
    Except String (List String) :=
  if ¬ pyStartsWith (pyStrip input_text) "Directory:" ∧ ¬ containsSub input_text "+---" then
    let paths := (((pySplit input_text '\n').map pyStrip).filter
      (fun l => l ≠ "")).map fix_windows_path
    if path_type = PathType.files then
      .ok (paths.filter fun p => (basename p).toList.contains '.')
    else if path_type = PathType.dirs then
      .ok (paths.filter fun p => !(basename p).toList.contains '.')
    else
      .ok paths
  else
    match directoryHeaderCapture input_text with
    | none => .error "Cannot find base directory in the input text"
    | some rawBase =>
      match firstMarkerCapture input_text.toList with
      | none => .error "Cannot find the first directory in the structure"
      | some rawFirst =>
        let base_dir := pyStrip rawBase
        let first_dir := pyStrip rawFirst
        match parseTreeLines base_dir path_type file_pattern research
            (pySplit input_text '\n') [] [] with
        | .error e => .error e
        | .ok paths => .ok ((fixDupPaths first_dir paths).map fix_windows_path)

/-- C10: in flat-list mode (input that neither starts with `Directory:`
after stripping nor contains the marker `+---`), the parser ignores the
name-pattern argument entirely: the result is the same for every pattern
value and every behaviour of the regex-search capability. -/
theorem flat_mode_ignores_pattern (input : String) (t : PathType)
    (fp fp' : Option String) (research research' : String → String → Bool)
    (h : ¬ pyStartsWith (pyStrip input) "Directory:" ∧ ¬ containsSub input "+---") :
    parse_directory_structure input t fp research =
      parse_directory_structure input t fp' research' := by
  rw [parse_directory_structure, parse_directory_structure, if_pos h, if_pos h]

/-- Witness for C10: a concrete flat input parsed with and without a
pattern. -/
theorem flat_mode_ignores_pattern_witness :
    parse_directory_structure "a.py\nnotes" PathType.files (some "zzz") (fun _ _ => true) =
      parse_directory_structure "a.py\nnotes" PathType.files none (fun _ _ => false) :=
  flat_mode_ignores_pattern "a.py\nnotes" PathType.files (some "zzz") none
    (fun _ _ => true) (fun _ _ => false) (by decide)

/-- C6 counterexample: the input `"+---foo"` contains a marker line but no
`Directory:` header; the claim says every input without both a header and a
marker is treated as a flat path list and returned without raising, but the
source autodetects on `Directory:`-after-strip OR the mere presence of
`+---`, enters tree mode here, and raises `ValueError`. -/
theorem parse_autodetect_counterexample :
    parse_directory_structure "+---foo" PathType.both none (fun _ _ => false) =
      .error "Cannot find base directory in the input text" := by rfl

/-- Whether a path classified as file (`isf`) survives the requested type
filter. -/
def typeMatches : PathType → Bool → Bool
  | .both, _ => true
  | .files, isf => isf
  | .dirs, isf => !isf

/-- C6 amended: flat-list mode is entered iff the stripped input does not
start with `Directory:` AND the input does not contain `+---` anywhere (not
merely when header plus marker are absent); in that mode the parser never
raises and returns the stripped nonempty lines, drive-letter normalized,
filtered by the requested type with a line counting as a file exactly when
its basename contains a `'.'`.  (Inputs routed to tree mode can raise, as
the counterexample shows.) -/
theorem parse_flat_mode_characterization (input : String) (t : PathType)
    (fp : Option String) (research : String → String → Bool)
    (h : ¬ pyStartsWith (pyStrip input) "Directory:" ∧ ¬ containsSub input "+---") :
    parse_directory_structure input t fp research =
      .ok (((((pySplit input '\n').map pyStrip).filter (fun l => l ≠ "")).map
        fix_windows_path).filter
          (fun p => typeMatches t ((basename p).toList.contains '.'))) := by
  rw [parse_directory_structure, if_pos h]
  cases t <;> simp [typeMatches, List.filter_true]

/-- Witness for C6: the amended characterization evaluated on a concrete
flat input. -/
theorem parse_flat_mode_characterization_witness :
    parse_directory_structure "a.py\nnotes" PathType.files none (fun _ _ => false) =
      .ok (((((pySplit "a.py\nnotes" '\n').map pyStrip).filter (fun l => l ≠ "")).map
        fix_windows_path).filter
          (fun p => typeMatches PathType.files ((basename p).toList.contains '.'))) :=
  parse_flat_mode_characterization "a.py\nnotes" PathType.files none (fun _ _ => false)
    (by decide)

/-- C7 counterexample: on the rendered tree of an absolute POSIX base
directory, the parser produces `/proj/proj/a.py`, whose parts contain the
declared first directory `proj` twice; removing the second occurrence of
that segment would give `/proj/a.py`, but the source rejoins with
`os.path.join`, which silently drops the leading empty part, and the parser
returns `proj/a.py` — the path lost its leading separator in addition to
the duplicated segment. -/
theorem duplicate_collapse_counterexample :
    parse_directory_structure "Directory: /proj\n+---proj\n    +---a.py" PathType.both none
        (fun _ _ => false) = .ok ["proj", "proj/a.py"] ∧
      pySplit "proj/a.py" '/' ≠ (pySplit "/proj/proj/a.py" '/').take 2 ++
        (pySplit "/proj/proj/a.py" '/').drop 3 := by
  constructor
  · rfl
  · decide

theorem splitChar_ne_nil (sep : Char) : ∀ (l : List Char), splitChar sep l ≠ [] := by
  intro l
  cases l with
  | nil => simp [splitChar]
  | cons c rest =>
    rw [splitChar]
    cases hsp : splitChar sep rest with
    | nil => simp
    | cons h t =>
      by_cases hc : c = sep <;> simp [hc]

/-- Parts produced by `splitChar` never contain the separator. -/
theorem splitChar_no_sep (sep : Char) : ∀ (l : List Char), ∀ q ∈ splitChar sep l, sep ∉ q := by
  intro l
  induction l with
  | nil =>
    intro q hq
    rw [splitChar] at hq
    simp at hq
    subst hq
    simp
  | cons c rest ih =>
    intro q hq
    rcases hsp : splitChar sep rest with _ | ⟨h, t⟩
    · exact absurd hsp (splitChar_ne_nil sep rest)
    · have hsc : splitChar sep (c :: rest) =
          if c = sep then [] :: h :: t else (c :: h) :: t := by
        rw [splitChar, hsp]
      rw [hsc] at hq
      by_cases hc : c = sep
      · rw [if_pos hc] at hq
        rcases List.mem_cons.mp hq with rfl | hq
        · simp
        · exact ih q (hsp ▸ hq)
      · rw [if_neg hc] at hq
        rcases List.mem_cons.mp hq with rfl | hq
        · intro hm
          rcases List.mem_cons.mp hm with rfl | hm
          · exact hc rfl
          · exact ih h (hsp ▸ List.mem_cons_self h t) hm
        · exact ih q (hsp ▸ List.mem_cons_of_mem h hq)

theorem pySplit_no_sep (s : String) : ∀ q ∈ pySplit s '/', '/' ∉ q.toList := by
  intro q hq
  rw [pySplit] at hq
  rcases List.mem_map.mp hq with ⟨chunk, hc, rfl⟩
  rw [toList_mk]
  exact splitChar_no_sep '/' s.toList chunk hc

/-- Declarative rejoining with the separator, used to state the collapse. -/
def interSep : List String → String
  | [] => ""
  | [x] => x
  | x :: y :: rest => x ++ "/" ++ interSep (y :: rest)

/-- Drop one leading empty part (what `os.path.join` does to the split of an
absolute POSIX path when rejoining). -/
def stripLeadingEmpty (l : List String) : List String :=
  match l with
  | h :: r :: rest => if h = "" then r :: rest else l
  | _ => l

theorem empty_append_str (s : String) : "" ++ s = s := by
  rw [String.ext_iff, String.data_append]
  rfl

theorem interSep_glue (x y : String) (rest : List String) :
    interSep ((x ++ "/" ++ y) :: rest) = x ++ "/" ++ interSep (y :: rest) := by
  cases rest with
  | nil => rfl
  | cons r rs =>
    show (x ++ "/" ++ y) ++ "/" ++ interSep (r :: rs) = _
    simp [interSep, String.append_assoc]

theorem joinAll_eq_interSep : ∀ (t : List String) (a : String),
    a ≠ "" → a.toList.getLast? ≠ some '/' →
    (∀ x ∈ t, x ≠ "" ∧ '/' ∉ x.toList) →
    joinAll a t = interSep (a :: t) := by
  intro t
  induction t with
  | nil => intro a _ _ _; rfl
  | cons b rest ih =>
    intro a ha halast hgood
    have hb := hgood b (List.mem_cons_self b rest)
    have hbl : b.toList ≠ [] := fun h0 => hb.1 ((string_eq_empty_iff b).mpr h0)
    have hbhead : b.toList.head? ≠ some '/' := fun hc => hb.2 (List.mem_of_mem_head? hc)
    have hstep : pjoin a b = a ++ "/" ++ b := by
      rw [pjoin, if_neg hbhead, if_neg]
      rintro (h0 | h0)
      · exact ha h0
      · exact halast h0
    have hlist2 : (a ++ "/" ++ b).toList = a.toList ++ '/' :: b.toList := by
      rw [toList_append, toList_append, List.append_assoc]
      rfl
    have hane : (a ++ "/" ++ b) ≠ "" := by
      intro h0
      have h1 := (string_eq_empty_iff _).mp h0
      rw [hlist2] at h1
      simp at h1
    have halast' : (a ++ "/" ++ b).toList.getLast? ≠ some '/' := by
      rw [hlist2, show ('/' :: b.toList) = ['/'] ++ b.toList from rfl, ← List.append_assoc,
        getLast?_append_right hbl]
      intro hc
      exact hb.2 (List.mem_of_mem_getLast? hc)
    calc joinAll a (b :: rest) = joinAll (a ++ "/" ++ b) rest := by
          rw [joinAll, List.foldl_cons, hstep]
          rfl
      _ = interSep ((a ++ "/" ++ b) :: rest) :=
          ih _ hane halast' (fun x hx => hgood x (List.mem_cons_of_mem _ hx))
      _ = interSep (a :: b :: rest) := by
          rw [interSep_glue]
          rfl

theorem removeSecondLoop_found : ∀ (l : List String) (fd : String) (i : Nat),
    1 ≤ l.count fd →
    ∃ j, removeSecondLoop fd l true i = some (i + j) ∧ l[j]? = some fd ∧
      (l.take j).count fd = 0 := by
  intro l
  induction l with
  | nil => intro fd i h; simp at h
  | cons p rest ih =>
    intro fd i h
    by_cases hp : p = fd
    · refine ⟨0, ?_, ?_, ?_⟩
      · rw [removeSecondLoop, if_pos hp]
        simp
      · simp [hp]
      · simp
    · have hcount : 1 ≤ rest.count fd := by
        rw [List.count_cons] at h
        simp only [beq_iff_eq] at h
        rw [if_neg hp] at h
        omega
      obtain ⟨j, hj1, hj2, hj3⟩ := ih fd (i + 1) hcount
      refine ⟨j + 1, ?_, ?_, ?_⟩
      · rw [removeSecondLoop, if_neg hp, hj1]
        exact congrArg some (by omega)
      · simpa using hj2
      · rw [List.take_succ_cons, List.count_cons]
        simp only [beq_iff_eq]
        rw [if_neg hp, hj3]

theorem removeSecondLoop_two : ∀ (l : List String) (fd : String) (i : Nat),
    2 ≤ l.count fd →
    ∃ j, removeSecondLoop fd l false i = some (i + j) ∧ l[j]? = some fd ∧
      (l.take j).count fd = 1 := by
  intro l
  induction l with
  | nil => intro fd i h; simp at h
  | cons p rest ih =>
    intro fd i h
    by_cases hp : p = fd
    · have hcount : 1 ≤ rest.count fd := by
        rw [List.count_cons] at h
        simp only [beq_iff_eq] at h
        rw [if_pos hp] at h
        omega
      obtain ⟨j, hj1, hj2, hj3⟩ := removeSecondLoop_found rest fd (i + 1) hcount
      refine ⟨j + 1, ?_, ?_, ?_⟩
      · rw [removeSecondLoop, if_pos hp]
        simp only [Bool.false_eq_true, if_false]
        rw [hj1]
        exact congrArg some (by omega)
      · simpa using hj2
      · rw [List.take_succ_cons, List.count_cons]
        simp only [beq_iff_eq]
        rw [if_pos hp, hj3]
    · have hcount : 2 ≤ rest.count fd := by
        rw [List.count_cons] at h
        simp only [beq_iff_eq] at h
        rw [if_neg hp] at h
        omega
      obtain ⟨j, hj1, hj2, hj3⟩ := ih fd (i + 1) hcount
      refine ⟨j + 1, ?_, ?_, ?_⟩
      · rw [removeSecondLoop, if_neg hp, hj1]
        exact congrArg some (by omega)
      · simpa using hj2
      · rw [List.take_succ_cons, List.count_cons]
        simp only [beq_iff_eq]
        rw [if_neg hp, hj3]

theorem fixDupPaths_singleton_of_loop (fd path : String) (j : Nat)
    (hcount : 1 < (pySplit path '/').count fd)
    (hloop : removeSecondLoop fd (pySplit path '/') false 0 = some j) :
    fixDupPaths fd [path] =
      [match (pySplit path '/').take j ++ (pySplit path '/').drop (j + 1) with
       | [] => ""
       | h :: t => joinAll h t] := by
  rw [fixDupPaths]
  simp only [List.flatMap_cons, List.flatMap_nil, List.append_nil]
  rw [if_pos hcount, hloop]

/-- C7 amended: for paths whose inner `/`-separated parts are nonempty (the
leading part may be empty, as for absolute POSIX paths): a path whose parts
contain the declared first directory at most once is returned with its
segments unchanged; a path whose parts contain it at least twice has the
second occurrence (the part at the index `idx` holding `first_dir` with
exactly one earlier occurrence) removed, and is rejoined by `os.path.join`,
which additionally drops a leading empty part — so an absolute path is
returned without its leading separator. -/
theorem duplicate_collapse_amended (first_dir path : String)
    (htail : ∀ p ∈ (pySplit path '/').tail, p ≠ "") :
    ((pySplit path '/').count first_dir ≤ 1 → fixDupPaths first_dir [path] = [path]) ∧
    (2 ≤ (pySplit path '/').count first_dir →
      ∃ idx, (pySplit path '/')[idx]? = some first_dir ∧
        ((pySplit path '/').take idx).count first_dir = 1 ∧
        fixDupPaths first_dir [path] =
          [interSep (stripLeadingEmpty
            ((pySplit path '/').take idx ++ (pySplit path '/').drop (idx + 1)))]) := by
  constructor
  · intro hle
    rw [fixDupPaths]
    simp only [List.flatMap_cons, List.flatMap_nil, List.append_nil]
    rw [if_neg (by omega)]
  · intro h2
    obtain ⟨j, hj1, hj2, hj3⟩ := removeSecondLoop_two (pySplit path '/') first_dir 0 h2
    rw [Nat.zero_add] at hj1
    refine ⟨j, hj2, hj3, ?_⟩
    rw [fixDupPaths_singleton_of_loop first_dir path j (by omega) hj1]
    have hj0 : 1 ≤ j := by
      by_contra h0
      have hj00 : j = 0 := by omega
      rw [hj00] at hj3
      simp at hj3
    obtain ⟨j', rfl⟩ : ∃ j', j = j' + 1 := ⟨j - 1, by omega⟩
    obtain ⟨p0, ptail, hps⟩ : ∃ p0 ptail, pySplit path '/' = p0 :: ptail := by
      cases hps : pySplit path '/' with
      | nil => rw [hps] at h2; simp at h2
      | cons a b => exact ⟨a, b, rfl⟩
    rw [hps, List.take_succ_cons, List.drop_succ_cons, List.cons_append]
    show [joinAll p0 (ptail.take j' ++ ptail.drop (j' + 1))] =
      [interSep (stripLeadingEmpty (p0 :: (ptail.take j' ++ ptail.drop (j' + 1))))]
    have ht : ∀ x ∈ ptail.take j' ++ ptail.drop (j' + 1), x ≠ "" ∧ '/' ∉ x.toList := by
      intro x hx
      have hxp : x ∈ ptail := by
        rcases List.mem_append.mp hx with hx | hx
        · exact List.take_subset _ _ hx
        · exact List.drop_subset _ _ hx
      refine ⟨htail x ?_, pySplit_no_sep path x ?_⟩
      · rw [hps]
        exact hxp
      · rw [hps]
        exact List.mem_cons_of_mem _ hxp
    by_cases hp0 : p0 = ""
    · subst hp0
      cases htl : ptail.take j' ++ ptail.drop (j' + 1) with
      | nil => rfl
      | cons r rs =>
        have hr := ht r (by rw [htl]; exact List.mem_cons_self r rs)
        have hrs : ∀ x ∈ rs, x ≠ "" ∧ '/' ∉ x.toList :=
          fun x hx => ht x (by rw [htl]; exact List.mem_cons_of_mem _ hx)
        have hgl : r.toList.getLast? ≠ some '/' :=
          fun hc => hr.2 (List.mem_of_mem_getLast? hc)
        have hstrip : stripLeadingEmpty ("" :: r :: rs) = r :: rs := by
          simp [stripLeadingEmpty]
        rw [hstrip]
        have hjoin : joinAll "" (r :: rs) = joinAll r rs := by
          rw [joinAll, List.foldl_cons]
          have hrhead : r.toList.head? ≠ some '/' :=
            fun hc => hr.2 (List.mem_of_mem_head? hc)
          have hpj : pjoin "" r = r := by
            rw [pjoin, if_neg hrhead, if_pos (Or.inl rfl)]
            exact empty_append_str r
          rw [hpj]
          rfl
        rw [hjoin, joinAll_eq_interSep rs r hr.1 hgl hrs]
    · cases htl : ptail.take j' ++ ptail.drop (j' + 1) with
      | nil =>
        have hstrip : stripLeadingEmpty [p0] = [p0] := rfl
        rw [hstrip]
        rfl
      | cons r rs =>
        have hstrip : stripLeadingEmpty (p0 :: r :: rs) = p0 :: r :: rs := by
          simp [stripLeadingEmpty, hp0]
        rw [hstrip]
        have hp0mem : p0 ∈ pySplit path '/' := by
          rw [hps]
          exact List.mem_cons_self _ _
        have hp0sep := pySplit_no_sep path p0 hp0mem
        have hgl : p0.toList.getLast? ≠ some '/' :=
          fun hc => hp0sep (List.mem_of_mem_getLast? hc)
        rw [joinAll_eq_interSep (r :: rs) p0 hp0 hgl
          (fun x hx => ht x (by rw [htl]; exact hx))]

/-- Witness for C7: the amended collapse evaluated on the concrete absolute
path whose parts contain `proj` twice. -/
theorem duplicate_collapse_amended_witness :
    ∃ idx, (pySplit "/proj/proj/a.py" '/')[idx]? = some "proj" ∧
      ((pySplit "/proj/proj/a.py" '/').take idx).count "proj" = 1 ∧
      fixDupPaths "proj" ["/proj/proj/a.py"] =
        [interSep (stripLeadingEmpty ((pySplit "/proj/proj/a.py" '/').take idx ++
          (pySplit "/proj/proj/a.py" '/').drop (idx + 1)))] :=
  (duplicate_collapse_amended "proj" "/proj/proj/a.py" (by decide)).2 (by decide)

/-! ## Report generation (src/printer.py lines 99-299)

`print_tree_and_file_contents` is modelled with the configuration already
decoded from YAML (the source aborts earlier when the configuration is
unreadable) and the host environment as an oracle record: `os.path.normpath`,
`os.path.relpath` against the working directory, `os.path.exists`, file
reading with the UTF-8 → latin-1 fallback (total), notebook conversion
(total, returns error text on failure), the directory trees that `os.walk`
and `os.listdir` enumerate, and `re.compile`, which yields the pattern's
`search` predicate or the compiler error text.  The gitignore matcher built
from the configured patterns is the same opaque predicate `m` used by the
tree renderer.  Terminal prints are recorded without the ANSI colouring
(applied only on a tty) and without the newline `print` appends. -/

structure OSModel where
  normpath : String → String
  relpathCwd : String → String
  pathExists : String → Bool
  readFile : String → String
  ipynbContent : String → String
  dirTree : String → Dir
  listdirFiles : String → Except String (List String)
  compileRegex : String → Except String (String → Bool)

/-- One `regexfiles` entry as decoded from the configuration:
`regex_entry.get('dir')`, `regex_entry.get('pattern')` (both possibly
absent) and `regex_entry.get('subdirs', True)`. -/
structure RegexEntry where
  dir : Option String
  pattern : Option String
  subdirs : Bool

structure Config where
  dirs : List String
  files : List String
  regexfiles : List RegexEntry

/-- The mutable run state: the chunks written to the `output` buffer (the
report/clipboard text), the chunks printed to the terminal, the `not_found`
diagnostics list, and `printed_files` — the source's set kept in insertion
order (it is probed only by membership and gains exactly one element per
emitted `File:` block, at the block's emission). -/
structure RunState where
  output : List String
  printed : List String
  not_found : List String
  printed_files : List String

/-- `file_path.endswith('.ipynb')`, on the character list. -/
def endsWithIpynb (p : String) : Bool :=
  ".ipynb".toList.isSuffixOf p.toList

/-- Content of one included file (printer.py lines 153-162, 222-232,
265-275): notebooks via `convert_ipynb_to_py_content`, otherwise a text
read whose latin-1 fallback never fails. -/
def readContent (osm : OSModel) (p : String) : String :=
  if endsWithIpynb p then osm.ipynbContent p else osm.readFile p

/-- One iteration of the `dirs` loop (printer.py lines 122-139). -/
def processDir (osm : OSModel) (m : String → Bool) (st : RunState) (dir_path : String) :
    RunState :=
  let dp := osm.normpath dir_path
  if osm.pathExists dp then
    let tree := get_tree_output m (osm.dirTree dp)
    { st with
      output := st.output ++ ["\nDirectory: " ++ dp ++ "\n"] ++ tree.map (· ++ "\n"),
      printed := st.printed ++ ["\nDirectory: " ++ dp ++ "\n"] ++ tree }
  else
    { st with
      not_found := st.not_found ++ ["Directory not found: " ++ dp],
      output := st.output ++ ["\nDirectory not found: " ++ dp ++ "\n"] }

/-- One iteration of the `files` loop (printer.py lines 143-176).  Note the
source's `else` branch: it fires both when the path does not exist and when
the path is already in `printed_files`, recording `File not found` in either
case. -/
def processFile (osm : OSModel) (m : String → Bool) (st : RunState) (file_path : String) :
    RunState :=
  let np := osm.normpath file_path
  if osm.pathExists np && !(st.printed_files.contains np) then
    if !(is_excluded (osm.relpathCwd np) m false) then
      let content := readContent osm np
      { st with
        output := st.output ++ ["\nFile: " ++ np ++ "\n", "```\n", content, "\n```\n"],
        printed_files := st.printed_files ++ [np],
        printed := st.printed ++ ["\nFile: " ++ np, "```\n", content, "\n```\n"] }
    else
      { st with
        not_found := st.not_found ++ ["File excluded by gitignore: " ++ np],
        output := st.output ++ ["\nFile excluded by gitignore: " ++ np ++ "\n"] }
  else
    { st with
      not_found := st.not_found ++ ["File not found: " ++ np],
      output := st.output ++ ["\nFile not found: " ++ np ++ "\n"] }

/-- Processing of one candidate file of a regex rule (printer.py lines
211-244 and 254-287): skip when excluded by the matcher or already printed;
emit a block when the compiled pattern's `search` accepts the base name. -/
def processRegexFile (osm : OSModel) (m : String → Bool) (search : String → Bool)
    (st : RunState) (file_path rel_path file_name : String) : RunState :=
  if is_excluded rel_path m false then st
  else if st.printed_files.contains file_path then st
  else if search file_name then
    let content := readContent osm file_path
    { st with
      output := st.output ++ ["\nFile: " ++ file_path ++ "\n", "```\n", content, "\n```\n"],
      printed_files := st.printed_files ++ [file_path],
      printed := st.printed ++ ["\nFile: " ++ file_path, "```\n", content, "\n```\n"] }
  else st

/-- The `os.walk` of a recursive regex rule (printer.py lines 203-244):
excluded subdirectories are pruned in place, each remaining file of the
current directory is processed, then the kept subdirectories are walked.
`root` is the joined walk path and `os.path.relpath(file_path, base_dir)`
is the join of the node's relative path with the file name. -/
def processWalk (osm : OSModel) (m : String → Bool) (search : String → Bool)
    (base_dir : String) : List String → RunState → Dir → RunState
  | relSegs, st, .mk _nm subdirs files =>
    let rel_root := relString relSegs
    let root := joinAll base_dir relSegs
    let st₁ := files.foldl
      (fun acc fn =>
        processRegexFile osm m search acc (pjoin root fn) (pjoin rel_root fn) fn) st
    let kept := subdirs.filter fun c => !is_excluded (pjoin rel_root c.name) m true
    kept.attach.foldl
      (fun acc c => processWalk osm m search base_dir (relSegs ++ [c.1.name]) acc c.1) st₁
termination_by _ _ d => sizeOf d
decreasing_by
  have h0 := List.mem_filter.mp c.2
  have h1 := List.sizeOf_lt_of_mem h0.1
  simp only [Dir.mk.sizeOf_spec]
  omega

/-- One `regexfiles` entry (printer.py lines 179-287): skip entries whose
`dir` or `pattern` is missing or falsy (the empty string); report a missing
base directory; report a pattern that fails to compile, carrying the
compiler's error text; otherwise search recursively or only the immediate
files, where `os.listdir` may itself fail with a reported access error. -/
def processRegexEntry (osm : OSModel) (m : String → Bool) (st : RunState)
    (e : RegexEntry) : RunState :=
  match e.dir, e.pattern with
  | some d, some p =>
    if d = "" ∨ p = "" then st
    else
      let base_dir := osm.normpath d
      if !(osm.pathExists base_dir) then
        { st with
          not_found := st.not_found ++ ["Base directory not found: " ++ base_dir],
          output := st.output ++ ["\nBase directory not found: " ++ base_dir ++ "\n"] }
      else
        match osm.compileRegex p with
        | .error err =>
          { st with
            not_found := st.not_found ++ ["Invalid regex pattern '" ++ p ++ "': " ++ err],
            output := st.output ++ ["\nInvalid regex pattern '" ++ p ++ "': " ++ err ++ "\n"] }
        | .ok search =>
          if e.subdirs then
            processWalk osm m search base_dir [] st (osm.dirTree base_dir)
          else
            match osm.listdirFiles base_dir with
            | .error err =>
              { st with
                not_found := st.not_found ++
                  ["Error accessing directory '" ++ base_dir ++ "': " ++ err],
                output := st.output ++
                  ["\nError accessing directory '" ++ base_dir ++ "': " ++ err ++ "\n"] }
            | .ok files_in_dir =>
              files_in_dir.foldl
                (fun acc fn =>
                  processRegexFile osm m search acc (pjoin base_dir fn) fn fn) st
  | _, _ => st

/-- Everything `print_tree_and_file_contents` does before the final
diagnostics block: the tree section (unless `no_dirtree`), then — unless
`dir_only` — the `files` loop followed by the `regexfiles` loop. -/
def runBody (osm : OSModel) (m : String → Bool) (cfg : Config)
    (dir_only no_dirtree : Bool) : RunState :=
  let st0 : RunState := ⟨[], [], [], []⟩
  let st1 := if no_dirtree then st0 else cfg.dirs.foldl (processDir osm m) st0
  if !dir_only then
    cfg.regexfiles.foldl (processRegexEntry osm m)
      (cfg.files.foldl (processFile osm m) st1)
  else st1

/-- `print_tree_and_file_contents` from src/printer.py lines 99-299: after
the body, the collected `not_found` diagnostics, when any, are printed to
the terminal as one block at the end (lines 289-293) — they are not written
to the `output` buffer there. -/
def print_tree_and_file_contents (osm : OSModel) (m : String → Bool) (cfg : Config)
    (dir_only no_dirtree : Bool) : RunState :=
  let st2 := runBody osm m cfg dir_only no_dirtree
  if st2.not_found ≠ [] then
    { st2 with
      printed := st2.printed ++ ["\nFiles or directories not found:"] ++ st2.not_found }
  else st2

/-- `output.getvalue().strip()` (printer.py line 295): the final report /
clipboard text.  Python `str.strip` is modelled by `pyStrip`. -/
def final_output (st : RunState) : String :=
  pyStrip (String.join st.output)

theorem foldl_attach {α σ : Type} (l : List α) (f : σ → α → σ) (init : σ) :
    l.attach.foldl (fun acc c => f acc c.1) init = l.foldl f init := by
  have h1 : l.attach.map Subtype.val = l := by simp
  rw [show l.foldl f init = (l.attach.map Subtype.val).foldl f init by rw [h1],
    List.foldl_map]

/-- Unfolding of `processWalk` without `attach`. -/
theorem processWalk_mk (osm : OSModel) (m : String → Bool) (search : String → Bool)
    (base_dir : String) (relSegs : List String) (st : RunState)
    (nm : String) (subdirs : List Dir) (files : List String) :
    processWalk osm m search base_dir relSegs st (.mk nm subdirs files) =
      ((subdirs.filter fun c => !is_excluded (pjoin (relString relSegs) c.name) m true).foldl
        (fun acc c => processWalk osm m search base_dir (relSegs ++ [c.name]) acc c)
        (files.foldl
          (fun acc fn => processRegexFile osm m search acc
            (pjoin (joinAll base_dir relSegs) fn) (pjoin (relString relSegs) fn) fn) st)) := by
  rw [processWalk.eq_1]
  exact foldl_attach
    (List.filter (fun c => !is_excluded (pjoin (relString relSegs) c.name) m true) subdirs)
    (fun acc c => processWalk osm m search base_dir (relSegs ++ [c.name]) acc c)
    (List.foldl
      (fun acc fn => processRegexFile osm m search acc
        (pjoin (joinAll base_dir relSegs) fn) (pjoin (relString relSegs) fn) fn) st files)

theorem not_mem_of_contains_eq_false {α : Type} [BEq α] [LawfulBEq α] {l : List α} {a : α}
    (h : l.contains a = false) : a ∉ l := by
  intro hm
  have helem := List.elem_iff.mpr hm
  rw [show l.elem a = l.contains a from rfl, h] at helem
  cases helem

theorem nodup_append_singleton {l : List String} {a : String}
    (h : l.Nodup) (ha : a ∉ l) : (l ++ [a]).Nodup := by
  rw [← List.concat_eq_append]
  exact List.Nodup.concat ha h

theorem foldl_preserves_mem {α σ : Type} (P : σ → Prop) (f : σ → α → σ) :
    ∀ (l : List α), (∀ a ∈ l, ∀ st, P st → P (f st a)) →
      ∀ st, P st → P (l.foldl f st) := by
  intro l
  induction l with
  | nil => intro _ st h; exact h
  | cons a t ih =>
    intro hf st h
    exact ih (fun x hx st' hst => hf x (List.mem_cons_of_mem _ hx) st' hst) _
      (hf a (List.mem_cons_self a t) st h)

theorem processDir_printed_files (osm : OSModel) (m : String → Bool) (st : RunState)
    (dp : String) : (processDir osm m st dp).printed_files = st.printed_files := by
  rw [processDir]
  split <;> rfl

theorem processFile_nodup (osm : OSModel) (m : String → Bool) (st : RunState) (p : String)
    (h : st.printed_files.Nodup) : (processFile osm m st p).printed_files.Nodup := by
  rw [processFile]
  by_cases h1 : (osm.pathExists (osm.normpath p) &&
      !(st.printed_files.contains (osm.normpath p))) = true
  · rw [if_pos h1]
    by_cases h2 : (!(is_excluded (osm.relpathCwd (osm.normpath p)) m false)) = true
    · rw [if_pos h2]
      show (st.printed_files ++ [osm.normpath p]).Nodup
      have hmem : osm.normpath p ∉ st.printed_files := by
        have hb := h1
        rw [Bool.and_eq_true] at hb
        exact not_mem_of_contains_eq_false (by simpa using hb.2)
      exact nodup_append_singleton h hmem
    · rw [if_neg h2]; exact h
  · rw [if_neg h1]; exact h

theorem processRegexFile_nodup (osm : OSModel) (m : String → Bool) (search : String → Bool)
    (st : RunState) (fp rp fn : String) (h : st.printed_files.Nodup) :
    (processRegexFile osm m search st fp rp fn).printed_files.Nodup := by
  rw [processRegexFile]
  by_cases h1 : is_excluded rp m false = true
  · rw [if_pos h1]; exact h
  · rw [if_neg h1]
    by_cases h2 : st.printed_files.contains fp = true
    · rw [if_pos h2]; exact h
    · rw [if_neg h2]
      by_cases h3 : search fn = true
      · rw [if_pos h3]
        show (st.printed_files ++ [fp]).Nodup
        exact nodup_append_singleton h
          (not_mem_of_contains_eq_false (Bool.eq_false_iff.mpr h2))
      · rw [if_neg h3]; exact h

theorem processWalk_nodup (osm : OSModel) (m : String → Bool) (search : String → Bool)
    (base_dir : String) (d : Dir) :
    ∀ relSegs (st : RunState), st.printed_files.Nodup →
      (processWalk osm m search base_dir relSegs st d).printed_files.Nodup := by
  induction d using Dir.ind with
  | step nm subdirs fs ih =>
    intro relSegs st h
    rw [processWalk_mk]
    refine foldl_preserves_mem (fun s : RunState => s.printed_files.Nodup) _ _ ?_ _ ?_
    · intro c hc st' h'
      exact ih c (List.mem_filter.mp hc).1 _ st' h'
    · refine foldl_preserves_mem (fun s : RunState => s.printed_files.Nodup) _ _ ?_ _ h
      intro fn _ st' h'
      exact processRegexFile_nodup osm m search st' _ _ _ h'

theorem processRegexEntry_nodup (osm : OSModel) (m : String → Bool) (st : RunState)
    (e : RegexEntry) (h : st.printed_files.Nodup) :
    (processRegexEntry osm m st e).printed_files.Nodup := by
  rcases e with ⟨ed, ep, esub⟩
  cases ed with
  | none => exact h
  | some d =>
    cases ep with
    | none => exact h
    | some p =>
      simp only [processRegexEntry]
      by_cases h1 : d = "" ∨ p = ""
      · rw [if_pos h1]; exact h
      · rw [if_neg h1]
        by_cases h2 : (!(osm.pathExists (osm.normpath d))) = true
        · rw [if_pos h2]; exact h
        · rw [if_neg h2]
          cases hcomp : osm.compileRegex p with
          | error err => exact h
          | ok search =>
            cases esub with
            | true => exact processWalk_nodup osm m search _ _ [] st h
            | false =>
              cases hls : osm.listdirFiles (osm.normpath d) with
              | error err => exact h
              | ok files_in_dir =>
                refine foldl_preserves_mem (fun s : RunState => s.printed_files.Nodup) _ _ ?_ _ h
                intro fn _ st' h'
                exact processRegexFile_nodup osm m search st' _ _ _ h'

/-- C1: in any run, over any configuration, environment and matcher, no
file path appears twice among the emitted `FileBlock`s: `printed_files`
(which gains exactly one entry per emitted `File:` block, at every one of
the three block-emission sites, and is only ever appended to after a
negative membership test) contains no duplicates at the end of the run. -/
theorem report_no_duplicate_file_blocks (osm : OSModel) (m : String → Bool) (cfg : Config)
    (dir_only no_dirtree : Bool) :
    (print_tree_and_file_contents osm m cfg dir_only no_dirtree).printed_files.Nodup := by
  have hst0 : (⟨[], [], [], []⟩ : RunState).printed_files.Nodup := List.nodup_nil
  have h1 : (if no_dirtree then (⟨[], [], [], []⟩ : RunState)
      else cfg.dirs.foldl (processDir osm m) ⟨[], [], [], []⟩).printed_files.Nodup := by
    cases no_dirtree with
    | true => exact hst0
    | false =>
      refine foldl_preserves_mem (fun s : RunState => s.printed_files.Nodup) _ _ ?_ _ hst0
      intro a _ st' h'
      show (processDir osm m st' a).printed_files.Nodup
      rw [processDir_printed_files]
      exact h'
  have hbody : (runBody osm m cfg dir_only no_dirtree).printed_files.Nodup := by
    rw [runBody]
    cases dir_only with
    | true => exact h1
    | false =>
      refine foldl_preserves_mem (fun s : RunState => s.printed_files.Nodup) _ _ ?_ _ ?_
      · intro e _ st' h'
        exact processRegexEntry_nodup osm m st' e h'
      · refine foldl_preserves_mem (fun s : RunState => s.printed_files.Nodup) _ _ ?_ _ h1
        intro p _ st' h'
        exact processFile_nodup osm m st' p h'
  rw [print_tree_and_file_contents]
  by_cases hc : (runBody osm m cfg dir_only no_dirtree).not_found ≠ []
  · rw [if_pos hc]
    exact hbody
  · rw [if_neg hc]
    exact hbody

theorem contains_eq_false_of_not_mem {α : Type} [BEq α] [LawfulBEq α] {l : List α} {a : α}
    (h : a ∉ l) : l.contains a = false := by
  cases hc : l.contains a with
  | false => rfl
  | true => exact absurd (List.elem_iff.mp hc) h

/-- C4 corrected: characterization of one explicit `files` entry.  A path
that does not exist — OR an existing path that is already in
`printed_files` — records a `File not found` diagnostic (the source's
single `else` conflates the two conditions); an existing, not-yet-printed
path excluded by the matcher records the exclusion diagnostic and is
skipped; an existing, not-yet-printed, unexcluded path is included: its
block is written and the path joins `printed_files`. -/
theorem explicit_file_entry_cases (osm : OSModel) (m : String → Bool) (st : RunState)
    (p : String) :
    (osm.pathExists (osm.normpath p) = false ∨ osm.normpath p ∈ st.printed_files →
      processFile osm m st p = { st with
        not_found := st.not_found ++ ["File not found: " ++ osm.normpath p],
        output := st.output ++ ["\nFile not found: " ++ osm.normpath p ++ "\n"] }) ∧
    (osm.pathExists (osm.normpath p) = true → osm.normpath p ∉ st.printed_files →
      is_excluded (osm.relpathCwd (osm.normpath p)) m false = true →
      processFile osm m st p = { st with
        not_found := st.not_found ++ ["File excluded by gitignore: " ++ osm.normpath p],
        output := st.output ++
          ["\nFile excluded by gitignore: " ++ osm.normpath p ++ "\n"] }) ∧
    (osm.pathExists (osm.normpath p) = true → osm.normpath p ∉ st.printed_files →
      is_excluded (osm.relpathCwd (osm.normpath p)) m false = false →
      processFile osm m st p = { st with
        output := st.output ++ ["\nFile: " ++ osm.normpath p ++ "\n", "```\n",
          readContent osm (osm.normpath p), "\n```\n"],
        printed_files := st.printed_files ++ [osm.normpath p],
        printed := st.printed ++ ["\nFile: " ++ osm.normpath p, "```\n",
          readContent osm (osm.normpath p), "\n```\n"] }) := by
  refine ⟨?_, ?_, ?_⟩
  · intro hcase
    rw [processFile, if_neg]
    intro hcond
    rw [Bool.and_eq_true] at hcond
    rcases hcase with hcase | hcase
    · rw [hcase] at hcond
      exact absurd hcond.1 (by simp)
    · exact not_mem_of_contains_eq_false (by simpa using hcond.2) hcase
  · intro hex hmem hexc
    have hc1 : (osm.pathExists (osm.normpath p) &&
        !(st.printed_files.contains (osm.normpath p))) = true := by
      rw [Bool.and_eq_true]
      exact ⟨hex, by rw [contains_eq_false_of_not_mem hmem]; rfl⟩
    rw [processFile, if_pos hc1, if_neg]
    simp [hexc]
  · intro hex hmem hexc
    have hc1 : (osm.pathExists (osm.normpath p) &&
        !(st.printed_files.contains (osm.normpath p))) = true := by
      rw [Bool.and_eq_true]
      exact ⟨hex, by rw [contains_eq_false_of_not_mem hmem]; rfl⟩
    rw [processFile, if_pos hc1, if_pos]
    simp [hexc]

/-- A tiny concrete environment: only the file `a` exists, with content
`hi`; path normalization and `relpath` are the identity. -/
def osSample : OSModel where
  normpath := id
  relpathCwd := id
  pathExists := fun p => p == "a"
  readFile := fun _ => "hi"
  ipynbContent := fun _ => ""
  dirTree := fun _ => .mk "" [] []
  listdirFiles := fun _ => .ok []
  compileRegex := fun _ => .error "e"

/-- C4 counterexample: with `files = [a, a]`, where `a` exists and is not
excluded, the second occurrence is an existing path already in PrintedSet —
yet the run records the diagnostic `File not found: a` although `a` exists,
refuting both the "NotFound iff the path does not exist" and the "skipped
without a diagnostic" parts of the claim. -/
theorem explicit_file_duplicate_counterexample :
    osSample.pathExists "a" = true ∧
    (print_tree_and_file_contents osSample (fun _ => false)
      ⟨[], ["a", "a"], []⟩ false false).not_found = ["File not found: a"] :=
  ⟨rfl, rfl⟩

/-- Witness for C4: the already-printed case of the characterization,
evaluated concretely. -/
theorem explicit_file_entry_cases_witness :
    processFile osSample (fun _ => false) ⟨[], [], [], ["a"]⟩ "a" =
      { output := ["\nFile not found: a\n"], printed := [],
        not_found := ["File not found: a"], printed_files := ["a"] } := by
  have h := (explicit_file_entry_cases osSample (fun _ => false) ⟨[], [], [], ["a"]⟩ "a").1
    (Or.inr (by decide))
  rw [h]
  rfl

/-- C5: a `regexfiles` entry with present, nonempty `dir` and `pattern`, an
existing base directory and a pattern that fails to compile records exactly
one diagnostic — `Invalid regex pattern '<pattern>': <error>`, containing
the text "Invalid regex pattern" together with the compiler's error text —
writes the same line to the report, emits nothing else (the entry is
skipped: `printed_files`, and the terminal prints, are untouched), and the
fold over entries continues with the remaining entries from that state: the
run does not abort. -/
theorem invalid_pattern_skips_and_continues (osm : OSModel) (m : String → Bool)
    (st : RunState) (e : RegexEntry) (d p err : String) (rest : List RegexEntry)
    (hd : e.dir = some d) (hp : e.pattern = some p)
    (hne : ¬(d = "" ∨ p = ""))
    (hex : osm.pathExists (osm.normpath d) = true)
    (hcomp : osm.compileRegex p = .error err) :
    processRegexEntry osm m st e = { st with
      not_found := st.not_found ++ ["Invalid regex pattern '" ++ p ++ "': " ++ err],
      output := st.output ++ ["\nInvalid regex pattern '" ++ p ++ "': " ++ err ++ "\n"] } ∧
    (e :: rest).foldl (processRegexEntry osm m) st =
      rest.foldl (processRegexEntry osm m) { st with
        not_found := st.not_found ++ ["Invalid regex pattern '" ++ p ++ "': " ++ err],
        output := st.output ++
          ["\nInvalid regex pattern '" ++ p ++ "': " ++ err ++ "\n"] } := by
  have hfirst : processRegexEntry osm m st e = { st with
      not_found := st.not_found ++ ["Invalid regex pattern '" ++ p ++ "': " ++ err],
      output := st.output ++
        ["\nInvalid regex pattern '" ++ p ++ "': " ++ err ++ "\n"] } := by
    rcases e with ⟨ed, ep, esub⟩
    simp only at hd hp
    subst hd
    subst hp
    simp only [processRegexEntry]
    rw [if_neg hne, if_neg (by simp [hex]), hcomp]
  exact ⟨hfirst, by rw [List.foldl_cons, hfirst]⟩

/-- Witness for C5: the theorem applied in the concrete environment, whose
regex compiler always fails with error text `e`. -/
theorem invalid_pattern_skips_and_continues_witness :
    processRegexEntry osSample (fun _ => false) ⟨[], [], [], []⟩ ⟨some "a", some "[", true⟩ =
      { output := ["\nInvalid regex pattern '[': e\n"], printed := [],
        not_found := ["Invalid regex pattern '[': e"], printed_files := [] } ∧
    ([⟨some "a", some "[", true⟩] : List RegexEntry).foldl
        (processRegexEntry osSample (fun _ => false)) ⟨[], [], [], []⟩ =
      ([] : List RegexEntry).foldl (processRegexEntry osSample (fun _ => false))
        { output := ["\nInvalid regex pattern '[': e\n"], printed := [],
          not_found := ["Invalid regex pattern '[': e"], printed_files := [] } := by
  have h := invalid_pattern_skips_and_continues osSample (fun _ => false) ⟨[], [], [], []⟩
    ⟨some "a", some "[", true⟩ "a" "[" "e" [] rfl rfl (by decide) (by decide) rfl
  exact ⟨by rw [h.1]; rfl, by rw [h.2]; rfl⟩

/-- C8 counterexample: a run over `files = [m, a]` (where only `a` exists)
collects the diagnostic `File not found: m`, yet the returned report text
carries that diagnostic inline, before the `File: a` content block, and
ends with the content fence — it contains no diagnostics block at the end.
The collected block goes to the terminal only (printer.py lines 289-293
print it without writing to `output`). -/
theorem diagnostics_block_counterexample :
    (print_tree_and_file_contents osSample (fun _ => false)
        ⟨[], ["m", "a"], []⟩ false false).not_found = ["File not found: m"] ∧
    final_output (print_tree_and_file_contents osSample (fun _ => false)
        ⟨[], ["m", "a"], []⟩ false false) =
      "File not found: m\n\nFile: a\n```\nhi\n```" ∧
    ("File not found: m".toList.isSuffixOf
      (final_output (print_tree_and_file_contents osSample (fun _ => false)
        ⟨[], ["m", "a"], []⟩ false false)).toList) = false := by
  refine ⟨rfl, rfl, ?_⟩
  decide

/-- C8 amended: whenever a run collects at least one diagnostic, the
diagnostics are emitted as one block at the very end of the *terminal*
output — after every main-content print, headed by
`Files or directories not found:` and listing every collected diagnostic —
while the returned report text keeps each diagnostic inline at the point it
was encountered, with no trailing block. -/
theorem diagnostics_block_at_end_of_terminal (osm : OSModel) (m : String → Bool)
    (cfg : Config) (dir_only no_dirtree : Bool)
    (h : (print_tree_and_file_contents osm m cfg dir_only no_dirtree).not_found ≠ []) :
    ∃ pre, (print_tree_and_file_contents osm m cfg dir_only no_dirtree).printed =
      pre ++ ["\nFiles or directories not found:"] ++
        (print_tree_and_file_contents osm m cfg dir_only no_dirtree).not_found ∧
      pre = (runBody osm m cfg dir_only no_dirtree).printed := by
  rw [print_tree_and_file_contents] at h ⊢
  by_cases hc : (runBody osm m cfg dir_only no_dirtree).not_found ≠ []
  · rw [if_pos hc]
    exact ⟨(runBody osm m cfg dir_only no_dirtree).printed, rfl, rfl⟩
  · rw [if_neg hc] at h
    exact absurd (by simpa using hc) h

/-- Witness for C8: the amended statement on the concrete two-file run. -/
theorem diagnostics_block_at_end_of_terminal_witness :
    ∃ pre, (print_tree_and_file_contents osSample (fun _ => false)
        ⟨[], ["m", "a"], []⟩ false false).printed =
      pre ++ ["\nFiles or directories not found:"] ++
        (print_tree_and_file_contents osSample (fun _ => false)
          ⟨[], ["m", "a"], []⟩ false false).not_found ∧
      pre = (runBody osSample (fun _ => false) ⟨[], ["m", "a"], []⟩ false false).printed :=
  diagnostics_block_at_end_of_terminal osSample (fun _ => false)
    ⟨[], ["m", "a"], []⟩ false false (by decide)

end ProjPrinter
